import Mathlib

/-!
Verification development for the anki-assimil repository.

The Python sources are shallowly embedded: pure string manipulation is
modelled on `List Char` / `String`, Python dicts are modelled as ordered
association lists with unique keys, and the stateful persistence manager is
modelled by explicit state passing.  Machine integers in the source are
plain Python ints used as counters and ids; they are modelled as `Nat`.
-/

/-! ### Python string primitives

`pyIsSpace` models Python's `str.isspace` character class (the code points
stripped by `str.strip()`). -/

def pyIsSpace (c : Char) : Bool :=
  c = ' ' || c = '\t' || c = '\n' || c = '\x0b' || c = '\x0c' || c = '\r' ||
  (0x1c ≤ c.toNat && c.toNat ≤ 0x1f) || c.toNat = 0x85 || c.toNat = 0xa0 ||
  c.toNat = 0x1680 || (0x2000 ≤ c.toNat && c.toNat ≤ 0x200a) ||
  c.toNat = 0x2028 || c.toNat = 0x2029 || c.toNat = 0x202f ||
  c.toNat = 0x205f || c.toNat = 0x3000

/-- Remove trailing characters satisfying `p` (Python `str.rstrip`). -/
def pyDropTrailing (p : Char → Bool) (l : List Char) : List Char :=
  (l.reverse.dropWhile p).reverse

/-- Python `str.strip()` on a character list. -/
def pyStrip (l : List Char) : List Char :=
  pyDropTrailing pyIsSpace (l.dropWhile pyIsSpace)

/-- Python `str.replace(old, new)` for a single-character `old`:
every occurrence of `c` is replaced by `repl`. -/
def replaceChar (c : Char) (repl : List Char) : List Char → List Char
  | [] => []
  | x :: xs => (if x = c then repl else [x]) ++ replaceChar c repl xs

/-- Python `"{:02d}".format(n)` for a nonnegative `n`. -/
def pyFormat2d (n : Nat) : String :=
  if (toString n).length < 2 then "0" ++ toString n else toString n

/-- Python `"{:03d}".format(n)` for a nonnegative `n`. -/
def pyFormat3d (n : Nat) : String :=
  if (toString n).length < 3 then
    (String.mk (List.replicate (3 - (toString n).length) '0')) ++ toString n
  else toString n

/-- ASCII fragment of Python `str.lower` (the deck names fed to it in this
repository are ASCII). -/
def pyLowerChar (c : Char) : Char :=
  if 'A' ≤ c ∧ c ≤ 'Z' then Char.ofNat (c.toNat + 32) else c

def pyLower (s : String) : String := ⟨s.data.map pyLowerChar⟩

/-- Python substring containment `pat in s`. -/
def containsSub (pat : List Char) : List Char → Bool
  | [] => pat.isEmpty
  | c :: rest => List.isPrefixOf pat (c :: rest) || containsSub pat rest

/-- Python `s.split(sep, 1)` for a single-character separator: split at the
first occurrence only.  Returns `[s]` when the separator does not occur. -/
def splitFirst (c0 : Char) : List Char → List (List Char)
  | [] => [[]]
  | c :: rest =>
    if c = c0 then [[], rest]
    else
      match splitFirst c0 rest with
      | [] => [[c]]
      | f :: fs => (c :: f) :: fs

/-- Python `s.split(sep)` for a nonempty separator `c0 :: sepRest`:
left-to-right, non-overlapping.  Written with explicit fuel (each step
consumes at least one character, so `s.length` fuel suffices) to keep the
definition structurally recursive and kernel-reducible. -/
def splitOnSepFuel (c0 : Char) (sepRest : List Char) :
    Nat → List Char → List (List Char)
  | _, [] => [[]]
  | 0, s => [s]
  | fuel + 1, c :: rest =>
    if List.isPrefixOf (c0 :: sepRest) (c :: rest) then
      [] :: splitOnSepFuel c0 sepRest fuel (rest.drop sepRest.length)
    else
      match splitOnSepFuel c0 sepRest fuel rest with
      | [] => [[c]]
      | f :: fs => (c :: f) :: fs

def splitOnSep (c0 : Char) (sepRest : List Char) (s : List Char) :
    List (List Char) :=
  splitOnSepFuel c0 sepRest s.length s

/-- Python `s.rstrip(ch)` for a single character. -/
def pyRstripChar (ch : Char) (l : List Char) : List Char :=
  pyDropTrailing (fun c => c = ch) l

/-! ### Tokenizer (src/v3/src/tokenizer.py)

`undigraph` converts Hebrew digraph/ligature code points to regular letters
and removes zero-width joiners, as a chain of five `str.replace` calls. -/

def undigraphChars (l : List Char) : List Char :=
  replaceChar '\u200d' []
    (replaceChar '\ufb4f' ['א', 'ל']
      (replaceChar '\u05f2' ['י', 'י']
        (replaceChar '\u05f1' ['ו', 'י']
          (replaceChar '\u05f0' ['ו', 'ו'] l))))

def undigraph (x : String) : String := ⟨undigraphChars x.data⟩

/-- Membership in the Hebrew vowel-point (nikud) range `ְ-ׄ`. -/
def isNikudChar (c : Char) : Bool := 0x5b0 ≤ c.toNat && c.toNat ≤ 0x5c4

/-- Membership in the Hebrew cantillation-mark (teamim) range `֑-֯`. -/
def isTeamimChar (c : Char) : Bool := 0x591 ≤ c.toNat && c.toNat ≤ 0x5af

/-- `normalize_hebrew_word` on character lists: strip nikud and teamim
(`re.sub(f"[{_NIKUD}{_TEAMIM}]", "", word)`), decompose ligatures
(`undigraph`), then trim surrounding whitespace (`.strip()`). -/
def normalizeChars (l : List Char) : List Char :=
  pyStrip (undigraphChars (l.filter (fun c => !(isNikudChar c || isTeamimChar c))))

def normalize_hebrew_word (word : String) : String := ⟨normalizeChars word.data⟩

/-! ### Levenshtein edit distance

The matcher calls the `Levenshtein.distance` library function; it is
embedded here by the standard unit-cost edit-distance recursion. -/

/-- The column recursion of the edit-distance computation for a fixed
first list `x :: xs`, parameterized by the already-defined distance
function `levxs = levenshtein_distance xs`.  This nesting keeps the
definition structurally recursive (and kernel-reducible). -/
def levAux (x : Char) (xs : List Char) (levxs : List Char → Nat) :
    List Char → Nat
  | [] => xs.length + 1
  | y :: ys =>
    if x = y then levxs ys
    else 1 + min (levxs (y :: ys)) (min (levAux x xs levxs ys) (levxs ys))

def levenshtein_distance : List Char → List Char → Nat
  | [], ys => ys.length
  | x :: xs, ys => levAux x xs (levenshtein_distance xs) ys

/-! ### Word matcher (src/v3/src/anki_matcher.py)

`AnkiCard` keeps the fields the matcher reads (the full `fields` map is
carried along in the source but never consulted by the matching logic). -/

structure AnkiCard where
  card_id : Nat
  note_id : Nat
  hebrew : String
  english : String
  normalized_hebrew : String
  tags : List String
deriving DecidableEq, Repr

structure WordMatch where
  lesson_word : String
  normalized_word : String
  anki_card : AnkiCard
  similarity_score : Nat
  match_type : String
deriving DecidableEq, Repr

/-- The matcher state after `load_deck_cards`: the loaded card list and the
configured threshold.  `hebrew_lookup` in the source is an index over
`cards` keyed by `normalized_hebrew` (entries in load order); it is
recovered here as `cards.filter (·.normalized_hebrew = key)`. -/
structure AnkiMatcher where
  deck_name : String
  similarity_threshold : Nat
  cards : List AnkiCard
deriving Repr

/-- Python list sort is a stable sort; it is embedded as insertion sort
(also stable, producing the same output list).  `DistLeR` is the
comparison `candidates.sort(key=lambda x: x[1])` sorts by. -/
def DistLeR (a b : AnkiCard × Nat) : Prop := a.2 ≤ b.2

instance : DecidableRel DistLeR := fun a b => Nat.decLe a.2 b.2

instance : IsTrans (AnkiCard × Nat) DistLeR := ⟨fun _ _ _ => Nat.le_trans⟩

instance : IsTotal (AnkiCard × Nat) DistLeR := ⟨fun a b => Nat.le_total a.2 b.2⟩

/-- `AnkiMatcher._fuzzy_match`: all cards within the Levenshtein threshold,
sorted by ascending distance (stable), truncated to `max_results`. -/
def fuzzy_match (M : AnkiMatcher) (normalized_word : String) (max_results : Nat) :
    List (AnkiCard × Nat) :=
  let candidates := M.cards.filterMap (fun card =>
    let distance := levenshtein_distance normalized_word.data card.normalized_hebrew.data
    if distance ≤ M.similarity_threshold then some (card, distance) else none)
  (List.insertionSort DistLeR candidates).take max_results

/-- The phase-2 loop of `find_matches`: append each fuzzy candidate unless a
match with the same `card_id` is already present (the check runs against
the growing list, so it also deduplicates fuzzy candidates among
themselves). -/
def appendFuzzy (lesson_word normalized_word : String) (acc : List WordMatch) :
    List (AnkiCard × Nat) → List WordMatch
  | [] => acc
  | p :: rest =>
    if acc.any (fun m => decide (m.anki_card.card_id = p.1.card_id)) then
      appendFuzzy lesson_word normalized_word acc rest
    else
      appendFuzzy lesson_word normalized_word
        (acc ++ [⟨lesson_word, normalized_word, p.1, p.2, "fuzzy"⟩]) rest

/-- Python lexicographic string comparison `s ≤ t` (by code point). -/
def lexLe : List Char → List Char → Bool
  | [], _ => true
  | _ :: _, [] => false
  | x :: xs, y :: ys => if x = y then lexLe xs ys else decide (x.toNat < y.toNat)

/-- The sort key of `find_matches`:
`matches.sort(key=lambda m: (m.similarity_score, m.anki_card.hebrew))`,
comparing Python tuples `(score, hebrew)` lexicographically. -/
def matchLe (a b : WordMatch) : Bool :=
  decide (a.similarity_score < b.similarity_score) ||
  (decide (a.similarity_score = b.similarity_score) &&
    lexLe a.anki_card.hebrew.data b.anki_card.hebrew.data)

def MatchLeR (a b : WordMatch) : Prop := matchLe a b = true

instance : DecidableRel MatchLeR :=
  fun a b => instDecidableEqBool (matchLe a b) true

/-- Phase 1 of `find_matches`: every card in the `hebrew_lookup` bucket of
the normalized query, with score 0 and type `exact`. -/
def exact_phase (M : AnkiMatcher) (lesson_word : String) : List WordMatch :=
  (M.cards.filter
    (fun c => decide (c.normalized_hebrew = normalize_hebrew_word lesson_word))).map
    (fun c => ⟨lesson_word, normalize_hebrew_word lesson_word, c, 0, "exact"⟩)

/-- The `matches` list of `find_matches` just before its final sort:
phase 1, extended by phase 2 only when `len(matches) < max_candidates`. -/
def pre_sort_matches (M : AnkiMatcher) (lesson_word : String) (max_candidates : Nat) :
    List WordMatch :=
  let exact := exact_phase M lesson_word
  if exact.length < max_candidates then
    appendFuzzy lesson_word (normalize_hebrew_word lesson_word) exact
      (fuzzy_match M (normalize_hebrew_word lesson_word) (max_candidates - exact.length))
  else exact

/-- `AnkiMatcher.find_matches`: phase 1 collects exact normalized matches
(score 0); phase 2, entered only while `len(matches) < max_candidates`,
appends deduplicated fuzzy candidates; the result is sorted (stably) by
`(score, hebrew)` and truncated to `max_candidates`. -/
def find_matches (M : AnkiMatcher) (lesson_word : String) (max_candidates : Nat) :
    List WordMatch :=
  (List.insertionSort MatchLeR (pre_sort_matches M lesson_word max_candidates)).take
    max_candidates

/-! ### Tag utilities (src/v3/src/tags.py) and the CSV-review apply path
(src/v3/src/csv_export.py, `CSVImporter.apply_approved_matches`) -/

def generate_deck_tag (deck_name : String) : String := pyLower deck_name

def generate_lesson_tag (deck_name : String) (lesson_num : Nat) : String :=
  generate_deck_tag deck_name ++ "::L" ++ pyFormat2d lesson_num

/-- The lesson tag built inline in `CSVImporter.apply_approved_matches`:
`f"assimil::lesson{lesson_num:02d}"`. -/
def csv_apply_lesson_tag (lesson_num : Nat) : String :=
  "assimil::lesson" ++ pyFormat2d lesson_num

/-! ### Audio metadata extraction (src/v3/src/audio.py, `extract_mp3_metadata`)

The file I/O and mutagen tag reading are abstracted away: the function is
modelled on the two tag values it actually inspects (title and album).
`original_file` (the source path) is omitted from the record. -/

structure Mp3Metadata where
  id : String
  hebrew : String
  english : String
  sound : String
  tags : String
  lesson : String
  lesson_num : String
  section_id : String
  new_filename : String
deriving DecidableEq, Repr

def extract_mp3_metadata (title album : String) : Option Mp3Metadata :=
  if title = "" ∨ album = "" then none
  else
    let lesson : List Char :=
      if containsSub " - ".data album.data then
        (splitOnSep ' ' "- ".data album.data).getLastD []
      else album.data
    let lesson_num : List Char :=
      match lesson with
      | 'L' :: _ => lesson.drop 2
      | _ => lesson
    let title_parts := splitFirst '-' title.data
    if title_parts.length < 2 then none
    else
      let section_id := title_parts.headD []
      let hebrew_text := pyRstripChar '٭' (pyStrip (title_parts.getD 1 []))
      let unique_id := lesson ++ '.' :: section_id
      let lesson_tag := "assimil-".data ++ lesson_num
      let new_filename := unique_id ++ ".mp3".data
      some {
        id := ⟨unique_id⟩
        hebrew := ⟨hebrew_text⟩
        english := "NA"
        sound := ⟨"[sound:".data ++ new_filename ++ "]".data⟩
        tags := ⟨"assimil ".data ++ lesson_tag⟩
        lesson := ⟨lesson⟩
        lesson_num := ⟨lesson_num⟩
        section_id := ⟨section_id⟩
        new_filename := ⟨new_filename⟩ }

/-! ### Persistence store (src/v3/src/persistence.py)

Python dicts are modelled as ordered association lists: assignment to an
existing key replaces the value in place, otherwise the pair is appended. -/

structure StoredMatch where
  lesson : Nat
  heb_word : String
  anki_hebrew : String
  anki_english : String
  card_id : Nat
  match_type : String
  score : Nat
deriving DecidableEq, Repr

structure UnmatchedWord where
  lesson : Nat
  heb_word : String
  context : String
  attempts : Nat
deriving DecidableEq, Repr

structure PersistenceManager where
  approved_matches : List (String × StoredMatch)
  extra_matches : List (String × StoredMatch)
  unmatched_words : List (String × UnmatchedWord)
deriving Repr

def emptyPersistence : PersistenceManager := ⟨[], [], []⟩

/-- `PersistenceManager._make_word_key`: `f"L{lesson:03d}:{normalized}"`. -/
def make_word_key (lesson : Nat) (heb_word : String) : String :=
  "L" ++ pyFormat3d lesson ++ ":" ++ normalize_hebrew_word heb_word

/-- Python dict assignment `d[k] = v` on an ordered association list. -/
def dictInsert {v : Type} (k : String) (val : v) (d : List (String × v)) :
    List (String × v) :=
  if d.any (fun p => decide (p.1 = k)) then
    d.map (fun p => if p.1 = k then (p.1, val) else p)
  else d ++ [(k, val)]

/-- `PersistenceManager.is_word_processed`. -/
def is_word_processed (pm : PersistenceManager) (lesson : Nat) (heb_word : String) : Bool :=
  let key := make_word_key lesson heb_word
  pm.approved_matches.any (fun p => decide (p.1 = key)) ||
  pm.extra_matches.any (fun p => decide (p.1 = key)) ||
  pm.unmatched_words.any (fun p => decide (p.1 = key))

/-- `PersistenceManager.save_approved_matches` (in-memory effect; the CSV
rewrite mirrors the merged map). -/
def save_approved_matches (pm : PersistenceManager) (ms : List StoredMatch) :
    PersistenceManager :=
  let merged := ms.foldl (fun d m => dictInsert (make_word_key m.lesson m.heb_word) m d)
    pm.approved_matches
  { pm with approved_matches := merged }

/-- `PersistenceManager.add_unmatched_word`: increment `attempts` when the
key exists, otherwise insert a fresh record with `attempts = 1`. -/
def add_unmatched_word (pm : PersistenceManager) (lesson : Nat) (heb_word context : String) :
    PersistenceManager :=
  let key := make_word_key lesson heb_word
  if pm.unmatched_words.any (fun p => decide (p.1 = key)) then
    let bumped := pm.unmatched_words.map (fun p =>
      if p.1 = key then (p.1, { p.2 with attempts := p.2.attempts + 1 }) else p)
    { pm with unmatched_words := bumped }
  else
    { pm with unmatched_words := pm.unmatched_words ++ [(key, ⟨lesson, heb_word, context, 1⟩)] }

/-- `V1Importer.import_extra_matches` (non-dry-run) appends rows
`(lesson, heb_word, card_id, notes)` to the extra-matches CSV; once the
store is reloaded, `_load_extra_matches` merges them into the extra map
keyed by `make_word_key` (no `is_word_processed` check is performed). -/
def import_v1_extra_matches (pm : PersistenceManager)
    (rows : List (Nat × String × Nat)) : PersistenceManager :=
  let merged := rows.foldl (fun d r =>
      dictInsert (make_word_key r.1 r.2.1) ⟨r.1, r.2.1, r.2.1, "(manual entry)", 0, "extra", 0⟩ d)
    pm.extra_matches
  { pm with extra_matches := merged }

/-- One store operation, for stating invariants over arbitrary operation
sequences. -/
inductive StoreOp where
  | saveApproved (ms : List StoredMatch)
  | addUnmatched (lesson : Nat) (heb_word context : String)
  | importV1Extra (rows : List (Nat × String × Nat))
deriving Repr

def applyStoreOp (pm : PersistenceManager) : StoreOp → PersistenceManager
  | .saveApproved ms => save_approved_matches pm ms
  | .addUnmatched lesson w ctx => add_unmatched_word pm lesson w ctx
  | .importV1Extra rows => import_v1_extra_matches pm rows

def applyStoreOps (pm : PersistenceManager) (ops : List StoreOp) : PersistenceManager :=
  ops.foldl applyStoreOp pm

/-- How many of the three persisted categories classify `key`. -/
def classificationCount (pm : PersistenceManager) (key : String) : Nat :=
  (if pm.approved_matches.any (fun p => decide (p.1 = key)) then 1 else 0) +
  (if pm.extra_matches.any (fun p => decide (p.1 = key)) then 1 else 0) +
  (if pm.unmatched_words.any (fun p => decide (p.1 = key)) then 1 else 0)

/-! ### Generation-1 batch script (src/v1/write-data-file.py)

The script builds `rows` as ordered dicts with keys
`id, hebrew, english, sound, tags` and then writes `assimil-init.csv`
twice in a row: first with `csv.DictWriter` (header + field values), then
reopening the same filename in `'w'` mode with a plain `csv.writer` fed
the dict rows themselves — and iterating a Python dict yields its keys.
Files are modelled as lists of cell-rows. -/

def v1Fieldnames : List String := ["id", "hebrew", "english", "sound", "tags"]

/-- `csv.DictWriter.writeheader()` + `writerows(rows)`: one header row,
then each row's values in fieldname order (`restval ''` for a missing
key). -/
def dictWriterFile (fieldnames : List String) (rows : List (List (String × String))) :
    List (List String) :=
  fieldnames :: rows.map (fun row =>
    fieldnames.map (fun fn => ((row.find? (fun p => decide (p.1 = fn))).map Prod.snd).getD ""))

/-- Plain `csv.writer.writerows(rows)` applied to dict rows: iterating a
dict yields its keys, so each output row is the row's key list. -/
def plainWriterFileOnDicts (rows : List (List (String × String))) : List (List String) :=
  rows.map (fun row => row.map Prod.fst)

/-- The file contents after the first write of `assimil-init.csv`. -/
def write_data_file_first (rows : List (List (String × String))) : List (List String) :=
  dictWriterFile v1Fieldnames rows

/-- The final contents of `assimil-init.csv`: the second `open(..., 'w')`
truncates the file, so only the second writer's output survives. -/
def write_data_file_final (rows : List (List (String × String))) : List (List String) :=
  plainWriterFileOnDicts rows

/-! ### Bridge client (src/v3/src/anki_api.py) and tag application
(src/v3/src/word_matching.py, `WordMatchingPipeline.apply_tags_to_anki`) -/

/-- What the HTTP layer hands back to `anki_request`: a transport failure
(connection refused / timeout, caught as `RequestException`), or a JSON
response with optional `error` and `result` fields. -/
inductive BridgeReply where
  | transportError
  | response (error : Option String) (result : Option Nat)
deriving DecidableEq, Repr

/-- `anki_request`: returns `None` on transport failure, `None` when the
response carries an error field, and otherwise the `result` payload
(itself possibly `None`). -/
def anki_request : BridgeReply → Option Nat
  | .transportError => none
  | .response (some _) _ => none
  | .response none r => r

/-- Outcome of one `addTags` call site inside the `try` block: either
`anki_request` returns (it swallows transport errors itself), or some
other exception propagates to the surrounding `except`. -/
inductive CallOutcome where
  | raises
  | returns (reply : BridgeReply)
deriving DecidableEq, Repr

structure TagStats where
  cards_to_tag : Nat
  cards_already_tagged : Nat
  tags_applied : Nat
  errors : Nat
deriving DecidableEq, Repr

/-- One pending lesson-word match paired with the bridge behaviour its
`addTags` call would encounter. -/
structure TagJob where
  should_tag : Bool
  outcome : CallOutcome
deriving Repr

/-- Loop body of `apply_tags_to_anki` for one match. -/
def applyTagStep (dry_run : Bool) (s : TagStats) (j : TagJob) : TagStats :=
  if j.should_tag then
    let s := { s with cards_to_tag := s.cards_to_tag + 1 }
    if dry_run then s
    else
      match j.outcome with
      | .raises => { s with errors := s.errors + 1 }
      | .returns reply =>
        if anki_request reply = none then
          { s with tags_applied := s.tags_applied + 1 }
        else
          { s with errors := s.errors + 1 }
  else { s with cards_already_tagged := s.cards_already_tagged + 1 }

/-- `WordMatchingPipeline.apply_tags_to_anki` over the pending matches. -/
def apply_tags_to_anki (dry_run : Bool) (jobs : List TagJob) : TagStats :=
  jobs.foldl (applyTagStep dry_run) ⟨0, 0, 0, 0⟩

/-! ### Derived notions the claims are stated with -/

/-- A live-mode `addTags` call is tallied as applied exactly when the call
returns and `anki_request` hands back `None`. -/
def countsAsApplied (j : TagJob) : Bool :=
  j.should_tag &&
    (match j.outcome with
     | .raises => false
     | .returns reply => decide (anki_request reply = none))

/-- A live-mode `addTags` call is tallied as an error exactly when it
raises or `anki_request` hands back a non-`None` result payload. -/
def countsAsError (j : TagJob) : Bool :=
  j.should_tag &&
    (match j.outcome with
     | .raises => true
     | .returns reply => decide (¬ anki_request reply = none))

/-- Number of records stored under `key` in one category. -/
def keyCount {v : Type} (key : String) (d : List (String × v)) : Nat :=
  d.countP (fun p => decide (p.1 = key))

/-- The per-category key-uniqueness invariant. -/
def storeKeysUnique (pm : PersistenceManager) : Prop :=
  ∀ key : String,
    keyCount key pm.approved_matches ≤ 1 ∧
    keyCount key pm.extra_matches ≤ 1 ∧
    keyCount key pm.unmatched_words ≤ 1

/-- The invariant every entry of the pre-sort `matches` list satisfies:
exact entries carry score 0 and an exactly-matching card; fuzzy entries
carry a positive within-threshold Levenshtein distance as score. -/
def MatchInv (M : AnkiMatcher) (nq : String) (m : WordMatch) : Prop :=
  (m.match_type = "exact" ∧ m.similarity_score = 0 ∧
    m.anki_card.normalized_hebrew = nq) ∨
  (m.match_type = "fuzzy" ∧ 1 ≤ m.similarity_score ∧
    m.similarity_score = levenshtein_distance nq.data m.anki_card.normalized_hebrew.data ∧
    m.similarity_score ≤ M.similarity_threshold)

/-- A sample data row as built by the Generation-1 script. -/
def v1SampleRow : List (String × String) :=
  [("id", "L001.S01"), ("hebrew", "בוקר טוב"), ("english", "NA"),
   ("sound", "[sound:L001.S01.mp3]"), ("tags", "assimil assimil-01")]

/-- A two-card deck: card 1 matches the query exactly, card 2 is a distinct
fuzzy candidate at distance 1. -/
def truncDemoMatcher : AnkiMatcher :=
  ⟨"Hebrew from Scratch", 3,
   [⟨1, 11, "a", "ea", "aa", []⟩, ⟨2, 12, "b", "eb", "ab", []⟩]⟩

/-- A one-card deck whose card sits at distance 1 from the query `"aa"`. -/
def fuzzyDemoMatcher : AnkiMatcher := ⟨"deck", 3, [⟨5, 50, "b", "eb", "ab", []⟩]⟩

/-- A deck with two distinct cards sharing the normalized form `"aa"`. -/
def dupExactMatcher : AnkiMatcher :=
  ⟨"deck", 3, [⟨1, 11, "a", "e1", "aa", []⟩, ⟨2, 12, "b", "e2", "aa", []⟩]⟩

/-- A deck on which C1's hypothesis holds: one exact card for the query
`"aa"` plus one fuzzy neighbour, with `max_candidates = 3`. -/
def specDemoMatcher : AnkiMatcher :=
  ⟨"deck", 3, [⟨1, 11, "a", "e1", "aa", []⟩, ⟨3, 13, "c", "e3", "ab", []⟩]⟩

/-! ### Lemmas about the Python string primitives -/

/-- `levenshtein_distance` satisfies the standard unit-cost edit-distance
recursion. -/
theorem levenshtein_distance_cons_cons (x : Char) (xs : List Char) (y : Char)
    (ys : List Char) :
    levenshtein_distance (x :: xs) (y :: ys) =
      if x = y then levenshtein_distance xs ys
      else 1 + min (levenshtein_distance xs (y :: ys))
        (min (levenshtein_distance (x :: xs) ys) (levenshtein_distance xs ys)) := rfl


theorem pyDropTrailing_eq_rdropWhile (p : Char → Bool) (l : List Char) :
    pyDropTrailing p l = l.rdropWhile p := rfl

theorem mem_replaceChar {x c : Char} {repl l : List Char}
    (h : x ∈ replaceChar c repl l) : x ∈ repl ∨ x ∈ l := by
  induction l with
  | nil => simp [replaceChar] at h
  | cons y ys ih =>
    simp only [replaceChar, List.mem_append] at h
    rcases h with h | h
    · split at h
      · exact Or.inl h
      · simp only [List.mem_singleton] at h
        exact Or.inr (by simp [h])
    · rcases ih h with h' | h'
      · exact Or.inl h'
      · exact Or.inr (List.mem_cons_of_mem _ h')

theorem not_mem_replaceChar_self {c : Char} {repl l : List Char}
    (h : c ∉ repl) : c ∉ replaceChar c repl l := by
  induction l with
  | nil => simp [replaceChar]
  | cons y ys ih =>
    simp only [replaceChar, List.mem_append, not_or]
    refine ⟨?_, ih⟩
    split
    · exact h
    · rename_i hyc
      simp only [List.mem_singleton]
      exact fun hcy => hyc hcy.symm

theorem not_mem_replaceChar {d c : Char} {repl l : List Char}
    (hrepl : d ∉ repl) (hl : d ∉ l) : d ∉ replaceChar c repl l := by
  intro h
  rcases mem_replaceChar h with h' | h'
  · exact hrepl h'
  · exact hl h'

theorem replaceChar_eq_self {c : Char} {repl l : List Char} (h : c ∉ l) :
    replaceChar c repl l = l := by
  induction l with
  | nil => rfl
  | cons y ys ih =>
    simp only [List.mem_cons, not_or] at h
    have hyc : ¬ (y = c) := fun hh => h.1 hh.symm
    simp only [replaceChar, if_neg hyc, ih h.2, List.singleton_append]

theorem mem_pyStrip {x : Char} {l : List Char} (h : x ∈ pyStrip l) : x ∈ l := by
  unfold pyStrip pyDropTrailing at h
  have h1 : x ∈ (l.dropWhile pyIsSpace).reverse.dropWhile pyIsSpace :=
    (List.mem_reverse).mp h
  have h2 : x ∈ (l.dropWhile pyIsSpace).reverse :=
    (List.dropWhile_sublist pyIsSpace).mem h1
  have h3 : x ∈ l.dropWhile pyIsSpace := (List.mem_reverse).mp h2
  exact (List.dropWhile_sublist pyIsSpace).mem h3

theorem dropWhile_head_cases (p : Char → Bool) (l : List Char) :
    l.dropWhile p = [] ∨
    ∃ hd tl, l.dropWhile p = hd :: tl ∧ p hd = false := by
  induction l with
  | nil => exact Or.inl rfl
  | cons x xs ih =>
    by_cases hx : p x = true
    · simpa [List.dropWhile_cons, hx] using ih
    · exact Or.inr ⟨x, xs, by simp [List.dropWhile_cons, hx], by simpa using hx⟩

theorem dropWhile_rdropWhile_dropWhile (p : Char → Bool) (l : List Char) :
    ((l.dropWhile p).rdropWhile p).dropWhile p = (l.dropWhile p).rdropWhile p := by
  rcases dropWhile_head_cases p l with h | ⟨hd, tl, h, hhd⟩
  · rw [h]; rfl
  · rw [h]
    rcases heq : (hd :: tl).rdropWhile p with _ | ⟨a, s⟩
    · rfl
    · obtain ⟨u, hu⟩ := List.rdropWhile_prefix p (hd :: tl)
      rw [heq] at hu
      have ha : a = hd := by
        have := hu
        simp only [List.cons_append] at this
        exact (List.cons.injEq _ _ _ _ ▸ this).1
      subst ha
      simp [List.dropWhile_cons, hhd]

theorem pyStrip_idem (l : List Char) : pyStrip (pyStrip l) = pyStrip l := by
  show pyDropTrailing pyIsSpace ((pyStrip l).dropWhile pyIsSpace) = pyStrip l
  have h1 : pyStrip l = (l.dropWhile pyIsSpace).rdropWhile pyIsSpace := rfl
  rw [h1, dropWhile_rdropWhile_dropWhile, pyDropTrailing_eq_rdropWhile,
    List.rdropWhile_idempotent]

/-! ### C3 helper lemmas: `normalize_hebrew_word` -/

theorem mem_undigraphChars {x : Char} {l : List Char} (h : x ∈ undigraphChars l) :
    x ∈ l ∨ x ∈ ['ו', 'י', 'א', 'ל'] := by
  unfold undigraphChars at h
  rcases mem_replaceChar h with h | h
  · simp at h
  rcases mem_replaceChar h with h | h
  · right; simp at h; rcases h with h | h <;> simp [h]
  rcases mem_replaceChar h with h | h
  · right; simp at h; simp [h]
  rcases mem_replaceChar h with h | h
  · right; simp at h; rcases h with h | h <;> simp [h]
  rcases mem_replaceChar h with h | h
  · right; simp at h; simp [h]
  · exact Or.inl h

theorem ligatures_not_mem_undigraphChars (l : List Char) :
    'װ' ∉ undigraphChars l ∧ 'ױ' ∉ undigraphChars l ∧
    'ײ' ∉ undigraphChars l ∧ 'ﭏ' ∉ undigraphChars l ∧
    '‍' ∉ undigraphChars l := by
  unfold undigraphChars
  refine ⟨?_, ?_, ?_, ?_, ?_⟩
  · apply not_mem_replaceChar (by decide)
    apply not_mem_replaceChar (by decide)
    apply not_mem_replaceChar (by decide)
    apply not_mem_replaceChar (by decide)
    exact not_mem_replaceChar_self (by decide)
  · apply not_mem_replaceChar (by decide)
    apply not_mem_replaceChar (by decide)
    apply not_mem_replaceChar (by decide)
    exact not_mem_replaceChar_self (by decide)
  · apply not_mem_replaceChar (by decide)
    apply not_mem_replaceChar (by decide)
    exact not_mem_replaceChar_self (by decide)
  · apply not_mem_replaceChar (by decide)
    exact not_mem_replaceChar_self (by decide)
  · exact not_mem_replaceChar_self (by decide)

theorem undigraphChars_eq_self {l : List Char}
    (h0 : 'װ' ∉ l) (h1 : 'ױ' ∉ l) (h2 : 'ײ' ∉ l)
    (h3 : 'ﭏ' ∉ l) (h4 : '‍' ∉ l) :
    undigraphChars l = l := by
  unfold undigraphChars
  rw [replaceChar_eq_self h0, replaceChar_eq_self h1, replaceChar_eq_self h2,
    replaceChar_eq_self h3, replaceChar_eq_self h4]

theorem normalizeChars_no_marks {c : Char} {l : List Char} (h : c ∈ normalizeChars l) :
    isNikudChar c = false ∧ isTeamimChar c = false := by
  unfold normalizeChars at h
  have h1 := mem_pyStrip h
  rcases mem_undigraphChars h1 with h2 | h2
  · have h3 := (List.mem_filter.mp h2).2
    simp only [Bool.not_eq_true', Bool.or_eq_false_iff] at h3
    exact h3
  · fin_cases h2 <;> exact ⟨by decide, by decide⟩

theorem normalizeChars_idem (l : List Char) :
    normalizeChars (normalizeChars l) = normalizeChars l := by
  have hfilter : (normalizeChars l).filter (fun c => !(isNikudChar c || isTeamimChar c)) =
      normalizeChars l := by
    apply List.filter_eq_self.mpr
    intro c hc
    have := normalizeChars_no_marks hc
    simp [this.1, this.2]
  have hlig := ligatures_not_mem_undigraphChars
    (l.filter (fun c => !(isNikudChar c || isTeamimChar c)))
  have hund : undigraphChars (normalizeChars l) = normalizeChars l := by
    apply undigraphChars_eq_self <;>
      exact fun hmem => by
        have := mem_pyStrip hmem
        first
          | exact hlig.1 this
          | exact hlig.2.1 this
          | exact hlig.2.2.1 this
          | exact hlig.2.2.2.1 this
          | exact hlig.2.2.2.2 this
  show pyStrip (undigraphChars ((normalizeChars l).filter _)) = normalizeChars l
  rw [hfilter, hund]
  unfold normalizeChars
  exact pyStrip_idem _

/-! ### Claim C3 -/

/-- C3: `normalize_hebrew_word` is idempotent, and its output contains no
character in the Hebrew vowel-point range (U+05B0–U+05C4, `isNikudChar`)
or cantillation-mark range (U+0591–U+05AF, `isTeamimChar`). -/
theorem normalize_idempotent_and_strips_marks (w : String) :
    normalize_hebrew_word (normalize_hebrew_word w) = normalize_hebrew_word w ∧
    ((normalize_hebrew_word w).data.all
      (fun c => !(isNikudChar c || isTeamimChar c))) = true := by
  constructor
  · show (⟨normalizeChars (normalizeChars w.data)⟩ : String) = ⟨normalizeChars w.data⟩
    rw [normalizeChars_idem]
  · apply List.all_eq_true.mpr
    intro c hc
    have h := normalizeChars_no_marks hc
    simp [h.1, h.2]

/-! ### Claim C6 -/

/-- C6: for every lesson number, the CSV-review apply path builds
`"assimil::lesson<2-digit>"` while the centralized tag utility builds
`"assimil::L<2-digit>"`, and the two tags are always distinct strings
(they differ at index 9: `'l'` vs `'L'`). -/
theorem csv_tag_differs_from_generate_lesson_tag (n : Nat) :
    csv_apply_lesson_tag n = "assimil::lesson" ++ pyFormat2d n ∧
    generate_lesson_tag "assimil" n = "assimil::L" ++ pyFormat2d n ∧
    csv_apply_lesson_tag n ≠ generate_lesson_tag "assimil" n := by
  have hlow : generate_deck_tag "assimil" = "assimil" := by decide
  have hcat : "assimil" ++ "::L" = "assimil::L" := rfl
  have hpre : generate_lesson_tag "assimil" n = "assimil::L" ++ pyFormat2d n := by
    unfold generate_lesson_tag
    rw [hlow, hcat]
  refine ⟨rfl, hpre, ?_⟩
  intro h
  rw [hpre] at h
  have hd := congrArg String.data h
  rw [show (csv_apply_lesson_tag n).data = "assimil::lesson".data ++ (pyFormat2d n).data from
    String.data_append _ _, String.data_append] at hd
  have h9 := congrArg (fun t => t[9]?) hd
  simp only at h9
  rw [List.getElem?_append_left (by decide),
    List.getElem?_append_left (by decide)] at h9
  simp at h9

/-! ### Claim C10 -/

theorem applyTagStep_tags_applied (s : TagStats) (j : TagJob) :
    (applyTagStep false s j).tags_applied =
      s.tags_applied + (if countsAsApplied j then 1 else 0) := by
  rcases j with ⟨st, oc⟩
  cases st
  · simp [applyTagStep, countsAsApplied]
  · cases oc with
    | raises => simp [applyTagStep, countsAsApplied]
    | returns reply =>
      by_cases h : anki_request reply = none <;>
        simp [applyTagStep, countsAsApplied, h]

theorem applyTagStep_errors (s : TagStats) (j : TagJob) :
    (applyTagStep false s j).errors =
      s.errors + (if countsAsError j then 1 else 0) := by
  rcases j with ⟨st, oc⟩
  cases st
  · simp [applyTagStep, countsAsError]
  · cases oc with
    | raises => simp [applyTagStep, countsAsError]
    | returns reply =>
      by_cases h : anki_request reply = none <;>
        simp [applyTagStep, countsAsError, h]

theorem foldl_applyTagStep_counts (jobs : List TagJob) : ∀ s : TagStats,
    (jobs.foldl (applyTagStep false) s).tags_applied =
      s.tags_applied + jobs.countP countsAsApplied ∧
    (jobs.foldl (applyTagStep false) s).errors =
      s.errors + jobs.countP countsAsError := by
  induction jobs with
  | nil => intro s; simp
  | cons j t ih =>
    intro s
    have h := ih (applyTagStep false s j)
    constructor
    · rw [List.foldl_cons, h.1, applyTagStep_tags_applied, List.countP_cons]
      by_cases hj : countsAsApplied j = true
      all_goals simp [hj]
      all_goals omega
    · rw [List.foldl_cons, h.2, applyTagStep_errors, List.countP_cons]
      by_cases hj : countsAsError j = true
      all_goals simp [hj]
      all_goals omega

/-- C10: in live mode, `apply_tags_to_anki` counts a tag application as
applied exactly when `anki_request` returns `None`; since `anki_request`
returns `None` on transport failure, on an explicit bridge error, and on a
successful `addTags` (null result payload) alike, every non-exception
`addTags` call increments `tags_applied`, and `errors` is incremented only
when the call raises or the bridge returns a non-null result — so bridge
failures are counted as successes. -/
theorem apply_tags_counts_bridge_failures_as_successes (jobs : List TagJob) :
    (apply_tags_to_anki false jobs).tags_applied = jobs.countP countsAsApplied ∧
    (apply_tags_to_anki false jobs).errors = jobs.countP countsAsError ∧
    anki_request .transportError = none ∧
    (∀ msg r, anki_request (.response (some msg) r) = none) ∧
    anki_request (.response none none) = none ∧
    (∀ j : TagJob, j.should_tag = true → j.outcome ≠ .raises →
      (countsAsApplied j = true ↔
        (match j.outcome with
         | .raises => False
         | .returns reply => anki_request reply = none))) := by
  have h := foldl_applyTagStep_counts jobs ⟨0, 0, 0, 0⟩
  refine ⟨by simpa [apply_tags_to_anki] using h.1,
    by simpa [apply_tags_to_anki] using h.2, rfl, fun msg r => rfl, rfl, ?_⟩
  intro j hst hraise
  rcases j with ⟨st, oc⟩
  cases oc
  · simp at hraise
  · simp only at hst
    subst hst
    simp [countsAsApplied]

/-! ### Persistence lemmas (C4, C5) -/

theorem keyCount_dictInsert {v : Type} (k key : String) (val : v)
    (d : List (String × v)) (h : keyCount key d ≤ 1) :
    keyCount key (dictInsert k val d) ≤ 1 := by
  unfold dictInsert
  split
  · rename_i hany
    unfold keyCount
    rw [List.countP_map]
    have : ((fun p => decide (p.1 = key)) ∘
        fun p : String × v => if p.1 = k then (p.1, val) else p) =
        (fun p : String × v => decide (p.1 = key)) := by
      funext q
      simp only [Function.comp]
      split <;> rfl
    rw [this]
    exact h
  · rename_i hany
    unfold keyCount
    rw [List.countP_append]
    by_cases hk : k = key
    · subst hk
      have hz : keyCount k d = 0 := by
        unfold keyCount
        apply List.countP_eq_zero.mpr
        intro p hp
        have := (List.any_eq_false.mp (Bool.eq_false_iff.mpr hany)) p hp
        simpa using this
      unfold keyCount at hz
      rw [hz]
      simp
    · have : List.countP (fun p => decide (p.1 = key)) [(k, val)] = 0 := by
        simp [hk]
      rw [this]
      simpa [keyCount] using h

theorem keyCount_foldl {v w : Type} (key : String)
    (step : List (String × w) → v → List (String × w))
    (hstep : ∀ d m, keyCount key d ≤ 1 → keyCount key (step d m) ≤ 1)
    (ms : List v) : ∀ (d : List (String × w)),
    keyCount key d ≤ 1 → keyCount key (ms.foldl step d) ≤ 1 := by
  induction ms with
  | nil => intro d h; exact h
  | cons m t ih =>
    intro d h
    exact ih _ (hstep d m h)

theorem keyCount_bump_map (key k : String) (d : List (String × UnmatchedWord)) :
    keyCount key (d.map (fun p =>
      if p.1 = k then (p.1, { p.2 with attempts := p.2.attempts + 1 }) else p)) =
    keyCount key d := by
  unfold keyCount
  rw [List.countP_map]
  congr 1
  funext q
  simp only [Function.comp]
  split <;> rfl

theorem storeKeysUnique_applyStoreOp (pm : PersistenceManager) (op : StoreOp)
    (h : storeKeysUnique pm) : storeKeysUnique (applyStoreOp pm op) := by
  intro key
  obtain ⟨h1, h2, h3⟩ := h key
  cases op with
  | saveApproved ms =>
    refine ⟨?_, h2, h3⟩
    exact keyCount_foldl key _
      (fun d m h => keyCount_dictInsert (make_word_key m.lesson m.heb_word) key m d h)
      ms pm.approved_matches h1
  | addUnmatched lesson w ctx =>
    unfold applyStoreOp add_unmatched_word
    simp only
    split
    · refine ⟨?_, ?_, ?_⟩
      · exact h1
      · exact h2
      · simpa [keyCount_bump_map] using h3
    · rename_i hany
      refine ⟨?_, ?_, ?_⟩
      · exact h1
      · exact h2
      unfold keyCount
      rw [List.countP_append]
      by_cases hk : make_word_key lesson w = key
      · have hz : List.countP (fun p => decide (p.1 = key)) pm.unmatched_words = 0 := by
          apply List.countP_eq_zero.mpr
          intro p hp
          have := (List.any_eq_false.mp (Bool.eq_false_iff.mpr hany)) p hp
          rw [← hk]
          simpa using this
        rw [hz]
        simp [List.countP_cons, hk]
      · have hone : List.countP (fun p => decide (p.1 = key))
            [(make_word_key lesson w, (⟨lesson, w, ctx, 1⟩ : UnmatchedWord))] = 0 := by
          simp [hk]
        rw [hone]
        simpa [keyCount] using h3
  | importV1Extra rows =>
    refine ⟨h1, ?_, h3⟩
    exact keyCount_foldl key _
      (fun d r h => keyCount_dictInsert (make_word_key r.1 r.2.1) key _ d h)
      rows pm.extra_matches h2

theorem storeKeysUnique_applyStoreOps (ops : List StoreOp) : ∀ pm,
    storeKeysUnique pm → storeKeysUnique (applyStoreOps pm ops) := by
  induction ops with
  | nil => intro pm h; exact h
  | cons op t ih =>
    intro pm h
    exact ih _ (storeKeysUnique_applyStoreOp pm op h)

/-! ### Claims C4 and C5 -/

/-- C4 counterexample: starting from an empty store, marking `(1, "ab")`
unmatched and then saving an approved match for the same lesson and word
leaves the key classified in two categories at once — no store operation
removes a key from the other categories. -/
theorem classification_exclusivity_counterexample :
    classificationCount
      (applyStoreOps emptyPersistence
        [StoreOp.addUnmatched 1 "ab" "",
         StoreOp.saveApproved [⟨1, "ab", "x", "y", 5, "approved", 0⟩]])
      (make_word_key 1 "ab") = 2 := by decide

/-- C4 (amended): after any sequence of store operations starting from an
empty store, each single category (approved / extra / unmatched) holds at
most one record per `"L<3-digit>:<normalized>"` key — the dict semantics
of each map guarantee per-category uniqueness — but the three categories
are not mutually exclusive (see the counterexample). -/
theorem store_per_category_key_unique (ops : List StoreOp) (key : String) :
    keyCount key (applyStoreOps emptyPersistence ops).approved_matches ≤ 1 ∧
    keyCount key (applyStoreOps emptyPersistence ops).extra_matches ≤ 1 ∧
    keyCount key (applyStoreOps emptyPersistence ops).unmatched_words ≤ 1 :=
  storeKeysUnique_applyStoreOps ops emptyPersistence
    (fun _ => ⟨by simp [keyCount, emptyPersistence],
      by simp [keyCount, emptyPersistence], by simp [keyCount, emptyPersistence]⟩) key

/-- C5: calling `add_unmatched_word` twice for the same (lesson, word) —
starting from a store that does not yet hold that key — leaves exactly one
unmatched record under the key, with `attempts = 2`, and
`is_word_processed` subsequently returns true. -/
theorem add_unmatched_word_neg (pm : PersistenceManager) (lesson : Nat) (w ctx : String)
    (h : pm.unmatched_words.any
      (fun p => decide (p.1 = make_word_key lesson w)) = false) :
    (add_unmatched_word pm lesson w ctx).unmatched_words =
      pm.unmatched_words ++ [(make_word_key lesson w, ⟨lesson, w, ctx, 1⟩)] := by
  simp [add_unmatched_word, h]

theorem add_unmatched_word_pos (pm : PersistenceManager) (lesson : Nat) (w ctx : String)
    (h : pm.unmatched_words.any
      (fun p => decide (p.1 = make_word_key lesson w)) = true) :
    (add_unmatched_word pm lesson w ctx).unmatched_words =
      pm.unmatched_words.map (fun p =>
        if p.1 = make_word_key lesson w then
          (p.1, { p.2 with attempts := p.2.attempts + 1 }) else p) := by
  simp [add_unmatched_word, h]

theorem add_unmatched_word_twice (pm : PersistenceManager) (lesson : Nat)
    (w c1 c2 : String)
    (h : pm.unmatched_words.any
      (fun p => decide (p.1 = make_word_key lesson w)) = false) :
    keyCount (make_word_key lesson w)
      (add_unmatched_word (add_unmatched_word pm lesson w c1) lesson w c2).unmatched_words
      = 1 ∧
    (∀ p ∈ (add_unmatched_word (add_unmatched_word pm lesson w c1) lesson w
        c2).unmatched_words,
      p.1 = make_word_key lesson w → p.2.attempts = 2) ∧
    is_word_processed (add_unmatched_word (add_unmatched_word pm lesson w c1) lesson w c2)
      lesson w = true := by
  have e1 := add_unmatched_word_neg pm lesson w c1 h
  have e2cond : (add_unmatched_word pm lesson w c1).unmatched_words.any
      (fun p => decide (p.1 = make_word_key lesson w)) = true := by
    rw [e1]; simp
  have e2 := add_unmatched_word_pos (add_unmatched_word pm lesson w c1) lesson w c2 e2cond
  have hz : List.countP (fun p => decide (p.1 = make_word_key lesson w))
      pm.unmatched_words = 0 := by
    apply List.countP_eq_zero.mpr
    intro p hp
    have := (List.any_eq_false.mp h) p hp
    simpa using this
  refine ⟨?_, ?_, ?_⟩
  · rw [e2, keyCount_bump_map, e1]
    unfold keyCount
    rw [List.countP_append, hz]
    simp
  · intro p hp hpk
    rw [e2, e1] at hp
    obtain ⟨q, hq, hbump⟩ := List.mem_map.mp hp
    rcases List.mem_append.mp hq with hq' | hq'
    · have hqk : ¬ (q.1 = make_word_key lesson w) := by
        have := (List.any_eq_false.mp h) q hq'
        simpa using this
      rw [if_neg hqk] at hbump
      subst hbump
      exact absurd hpk hqk
    · simp only [List.mem_singleton] at hq'
      subst hq'
      simp only [if_pos rfl] at hbump
      subst hbump
      rfl
  · have hany : (add_unmatched_word (add_unmatched_word pm lesson w c1) lesson w
        c2).unmatched_words.any
        (fun p => decide (p.1 = make_word_key lesson w)) = true := by
      rw [e2, e1]
      simp
    unfold is_word_processed
    simp only [hany, Bool.or_true]

/-- Witness for C5 at a concrete input: the empty store and the word
`"בוקר"` in lesson 1. -/
theorem add_unmatched_word_twice_witness :
    (emptyPersistence.unmatched_words.any
      (fun p => decide (p.1 = make_word_key 1 "בוקר")) = false) ∧
    (keyCount (make_word_key 1 "בוקר")
      (add_unmatched_word (add_unmatched_word emptyPersistence 1 "בוקר" "ctx") 1 "בוקר"
        "ctx2").unmatched_words = 1 ∧
    (∀ p ∈ (add_unmatched_word (add_unmatched_word emptyPersistence 1 "בוקר" "ctx") 1
        "בוקר" "ctx2").unmatched_words,
      p.1 = make_word_key 1 "בוקר" → p.2.attempts = 2) ∧
    is_word_processed
      (add_unmatched_word (add_unmatched_word emptyPersistence 1 "בוקר" "ctx") 1 "בוקר"
        "ctx2") 1 "בוקר" = true) :=
  ⟨by decide, add_unmatched_word_twice emptyPersistence 1 "בוקר" "ctx" "ctx2" (by decide)⟩

/-! ### Claim C7 -/

/-- C7 counterexample: for title `"S02-שלום עולם٭"` and album
`"Course Name - L007"` the extracted tags string does not contain
`"assimil-007"`: the code computes the lesson tag from `lesson[2:]`, which
drops the first two characters of `"L007"` (both the `'L'` and the first
digit), producing `"assimil-07"`. -/
theorem extract_mp3_metadata_tag_counterexample :
    ((extract_mp3_metadata "S02-שלום עולם٭" "Course Name - L007").map Mp3Metadata.tags =
      some "assimil assimil-07") ∧
    ¬ (∃ r, extract_mp3_metadata "S02-שלום עולם٭" "Course Name - L007" = some r ∧
        containsSub "assimil-007".data r.tags.data = true) := by
  refine ⟨by decide, ?_⟩
  rintro ⟨r, hr, hc⟩
  have he : extract_mp3_metadata "S02-שלום עולם٭" "Course Name - L007" =
      some ⟨"L007.S02", "שלום עולם", "NA", "[sound:L007.S02.mp3]",
        "assimil assimil-07", "L007", "07", "S02", "L007.S02.mp3"⟩ := by decide
  rw [he] at hr
  have hrr := Option.some.inj hr
  rw [← hrr] at hc
  exact absurd hc (by decide)

/-- C7 (amended): for title `"S02-שלום עולם٭"` and album
`"Course Name - L007"`, metadata extraction produces id `"L007.S02"`,
hebrew `"שלום עולם"` (trailing `'٭'` stripped), english `"NA"`, and the
tags string `"assimil assimil-07"`, which contains `"assimil"` and
`"assimil-07"` (not `"assimil-007"`). -/
theorem extract_mp3_metadata_concrete :
    extract_mp3_metadata "S02-שלום עולם٭" "Course Name - L007" =
      some ⟨"L007.S02", "שלום עולם", "NA", "[sound:L007.S02.mp3]",
        "assimil assimil-07", "L007", "07", "S02", "L007.S02.mp3"⟩ ∧
    containsSub "assimil".data "assimil assimil-07".data = true ∧
    containsSub "assimil-07".data "assimil assimil-07".data = true := by
  refine ⟨by decide, by decide, by decide⟩

/-! ### Claim C8 -/

/-- C8 counterexample: with one data row, the final file does not consist
of the data row's values — the second writer, fed dict rows, writes each
dict's keys, so the surviving content is the field-name row. -/
theorem write_data_file_counterexample :
    write_data_file_final [v1SampleRow] ≠
      [["L001.S01", "בוקר טוב", "NA", "[sound:L001.S01.mp3]", "assimil assimil-01"]] ∧
    write_data_file_final [v1SampleRow] = [["id", "hebrew", "english", "sound", "tags"]] := by
  refine ⟨by decide, by decide⟩

/-- C8 (amended): the output CSV is written twice in immediate succession
to the same destination; the second write truncates the first, so neither
the header row nor the data values survive: because the plain `csv.writer`
iterates each dict row and gets its keys, the final content is one copy of
the field-name list per data row. -/
theorem write_data_file_final_loses_values (rows : List (List (String × String)))
    (h : ∀ r ∈ rows, r.map Prod.fst = v1Fieldnames) :
    write_data_file_final rows = List.replicate rows.length v1Fieldnames := by
  unfold write_data_file_final plainWriterFileOnDicts
  induction rows with
  | nil => rfl
  | cons r t ih =>
    simp only [List.map_cons, List.length_cons, List.replicate_succ]
    rw [h r (List.mem_cons_self r t), ih (fun q hq => h q (List.mem_cons_of_mem _ hq))]

/-- Witness for C8's amended claim at the sample row. -/
theorem write_data_file_final_loses_values_witness :
    (∀ r ∈ [v1SampleRow], r.map Prod.fst = v1Fieldnames) ∧
    write_data_file_final [v1SampleRow] =
      List.replicate [v1SampleRow].length v1Fieldnames :=
  ⟨by decide, write_data_file_final_loses_values [v1SampleRow] (by decide)⟩

/-! ### Claim C9 -/

/-- C9: with one exact match present and `max_candidates = 2`,
`find_matches` returns only 1 result even though card 2 is a distinct
fuzzy candidate within the threshold: the fuzzy candidate list is
truncated to `max_candidates - len(exact)` slots before duplicates of the
exact matches are removed, so the duplicate (card 1 at distance 0)
consumes the only fuzzy slot. -/
theorem find_matches_truncates_before_dedup :
    (find_matches truncDemoMatcher "aa" 2).length = 1 ∧ (1 : Nat) < 2 ∧
    (⟨2, 12, "b", "eb", "ab", []⟩ : AnkiCard) ∈ truncDemoMatcher.cards ∧
    levenshtein_distance (normalize_hebrew_word "aa").data "ab".data ≤
      truncDemoMatcher.similarity_threshold ∧
    (∀ m ∈ find_matches truncDemoMatcher "aa" 2, m.anki_card.card_id ≠ 2) := by
  refine ⟨by decide, by decide, by decide, by decide, by decide⟩

/-! ### Order lemmas for the match sort keys (C1, C2) -/

theorem charToNat_inj {x y : Char} (h : x.toNat = y.toNat) : x = y := by
  have := congrArg Char.ofNat h
  rwa [Char.ofNat_toNat, Char.ofNat_toNat] at this

theorem lexLe_total : ∀ x y : List Char, lexLe x y = true ∨ lexLe y x = true := by
  intro x
  induction x with
  | nil => intro y; exact Or.inl rfl
  | cons a as ih =>
    intro y
    cases y with
    | nil => exact Or.inr rfl
    | cons b bs =>
      by_cases hab : a = b
      · subst hab
        simpa [lexLe] using ih bs
      · have hnat : a.toNat ≠ b.toNat := fun h => hab (charToNat_inj h)
        rcases Nat.lt_or_ge a.toNat b.toNat with h | h
        · exact Or.inl (by simp [lexLe, hab, h])
        · have hlt : b.toNat < a.toNat := Nat.lt_of_le_of_ne h (fun hh => hnat hh.symm)
          have hba : ¬ (b = a) := fun hh => hab hh.symm
          exact Or.inr (by simp [lexLe, hba, hlt])

theorem lexLe_trans : ∀ x y z : List Char,
    lexLe x y = true → lexLe y z = true → lexLe x z = true := by
  intro x
  induction x with
  | nil => intro y z _ _; rfl
  | cons a as ih =>
    intro y z hxy hyz
    cases y with
    | nil => simp [lexLe] at hxy
    | cons b bs =>
      cases z with
      | nil => simp [lexLe] at hyz
      | cons c cs =>
        by_cases hab : a = b <;> by_cases hbc : b = c
        · subst hab; subst hbc
          simp only [lexLe, if_pos rfl] at hxy hyz ⊢
          exact ih bs cs hxy hyz
        · subst hab
          simp only [lexLe, if_neg hbc, decide_eq_true_eq] at hyz
          simp [lexLe, hbc, hyz]
        · subst hbc
          simp only [lexLe, if_neg hab, decide_eq_true_eq] at hxy
          simp [lexLe, hab, hxy]
        · simp only [lexLe, if_neg hab, decide_eq_true_eq] at hxy
          simp only [lexLe, if_neg hbc, decide_eq_true_eq] at hyz
          have hlt : a.toNat < c.toNat := Nat.lt_trans hxy hyz
          have hac : ¬ (a = c) := fun h => absurd (h ▸ hlt) (Nat.lt_irrefl _)
          simp [lexLe, hac, hlt]

theorem matchLe_score_le {a b : WordMatch} (h : matchLe a b = true) :
    a.similarity_score ≤ b.similarity_score := by
  simp only [matchLe, Bool.or_eq_true, Bool.and_eq_true, decide_eq_true_eq] at h
  rcases h with h | ⟨h, _⟩
  · omega
  · omega

theorem matchLeR_trans (a b c : WordMatch) (hab : MatchLeR a b)
    (hbc : MatchLeR b c) : MatchLeR a c := by
  simp only [MatchLeR, matchLe, Bool.or_eq_true, Bool.and_eq_true,
    decide_eq_true_eq] at hab hbc ⊢
  rcases hab with h1 | ⟨h1, h1l⟩ <;> rcases hbc with h2 | ⟨h2, h2l⟩
  · exact Or.inl (Nat.lt_trans h1 h2)
  · exact Or.inl (h2 ▸ h1)
  · exact Or.inl (h1 ▸ h2)
  · exact Or.inr ⟨h1.trans h2, lexLe_trans _ _ _ h1l h2l⟩

theorem matchLeR_total (a b : WordMatch) : MatchLeR a b ∨ MatchLeR b a := by
  simp only [MatchLeR, matchLe, Bool.or_eq_true, Bool.and_eq_true, decide_eq_true_eq]
  rcases Nat.lt_trichotomy a.similarity_score b.similarity_score with h | h | h
  · exact Or.inl (Or.inl h)
  · rcases lexLe_total a.anki_card.hebrew.data b.anki_card.hebrew.data with hl | hl
    · exact Or.inl (Or.inr ⟨h, hl⟩)
    · exact Or.inr (Or.inr ⟨h.symm, hl⟩)
  · exact Or.inr (Or.inl h)

/-! ### Levenshtein distance is zero exactly on equal lists -/

theorem levenshtein_distance_eq_zero_iff :
    ∀ xs ys : List Char, levenshtein_distance xs ys = 0 ↔ xs = ys := by
  intro xs
  induction xs with
  | nil =>
    intro ys
    cases ys with
    | nil => simp [levenshtein_distance]
    | cons y ys => simp [levenshtein_distance]
  | cons x xs ih =>
    intro ys
    cases ys with
    | nil =>
      constructor
      · intro h
        exact absurd h (by simp [levenshtein_distance, levAux])
      · intro h
        exact absurd h (by simp)
    | cons y ys =>
      by_cases hxy : x = y
      · subst hxy
        have he : levenshtein_distance (x :: xs) (x :: ys) =
            levenshtein_distance xs ys := by
          rw [levenshtein_distance_cons_cons, if_pos rfl]
        rw [he, ih ys]
        constructor
        · intro h; rw [h]
        · intro h
          exact (List.cons.injEq _ _ _ _ ▸ h).2
      · rw [levenshtein_distance_cons_cons, if_neg hxy]
        constructor
        · intro h; omega
        · intro h
          have := (List.cons.injEq _ _ _ _ ▸ h).1
          exact absurd this hxy

/-! ### Characterization of the matcher phases (C1, C2) -/

theorem fuzzy_match_mem {M : AnkiMatcher} {nq : String} {k : Nat}
    {p : AnkiCard × Nat} (h : p ∈ fuzzy_match M nq k) :
    p.1 ∈ M.cards ∧
    p.2 = levenshtein_distance nq.data p.1.normalized_hebrew.data ∧
    p.2 ≤ M.similarity_threshold := by
  unfold fuzzy_match at h
  simp only at h
  have h1 := List.Sublist.mem h (List.take_sublist _ _)
  have h2 := (List.mem_insertionSort DistLeR).mp h1
  obtain ⟨card, hcard, hf⟩ := List.mem_filterMap.mp h2
  by_cases hd : levenshtein_distance nq.data card.normalized_hebrew.data ≤
      M.similarity_threshold
  · rw [if_pos hd] at hf
    have hp := Option.some.inj hf
    rw [← hp]
    exact ⟨hcard, rfl, hd⟩
  · rw [if_neg hd] at hf
    exact absurd hf (by simp)

theorem appendFuzzy_eq_append (lw nw : String) :
    ∀ (ps : List (AnkiCard × Nat)) (acc : List WordMatch),
    ∃ extra, appendFuzzy lw nw acc ps = acc ++ extra ∧
      ∀ m ∈ extra, ∃ p ∈ ps, m = ⟨lw, nw, p.1, p.2, "fuzzy"⟩ := by
  intro ps
  induction ps with
  | nil =>
    intro acc
    exact ⟨[], by simp [appendFuzzy], by simp⟩
  | cons p rest ih =>
    intro acc
    unfold appendFuzzy
    split
    · obtain ⟨extra, he, hm⟩ := ih acc
      refine ⟨extra, he, fun m hm' => ?_⟩
      obtain ⟨q, hq, hqe⟩ := hm m hm'
      exact ⟨q, List.mem_cons_of_mem _ hq, hqe⟩
    · obtain ⟨extra, he, hm⟩ := ih (acc ++ [⟨lw, nw, p.1, p.2, "fuzzy"⟩])
      refine ⟨⟨lw, nw, p.1, p.2, "fuzzy"⟩ :: extra, by rw [he]; simp, ?_⟩
      intro m hm'
      rcases List.mem_cons.mp hm' with hm'' | hm''
      · exact ⟨p, List.mem_cons_self _ _, hm''⟩
      · obtain ⟨q, hq, hqe⟩ := hm m hm''
        exact ⟨q, List.mem_cons_of_mem _ hq, hqe⟩

theorem exact_phase_mem {M : AnkiMatcher} {lw : String} {m : WordMatch}
    (h : m ∈ exact_phase M lw) :
    m.anki_card ∈ M.cards ∧
    m.anki_card.normalized_hebrew = normalize_hebrew_word lw ∧
    m.similarity_score = 0 ∧ m.match_type = "exact" := by
  unfold exact_phase at h
  obtain ⟨c, hc, hm⟩ := List.mem_map.mp h
  have hc1 := (List.mem_filter.mp hc).1
  have hc2 := (List.mem_filter.mp hc).2
  simp only [decide_eq_true_eq] at hc2
  rw [← hm]
  exact ⟨hc1, hc2, rfl, rfl⟩

theorem exact_phase_covers {M : AnkiMatcher} {lw : String} {c : AnkiCard}
    (hc : c ∈ M.cards) (hnorm : c.normalized_hebrew = normalize_hebrew_word lw) :
    (⟨lw, normalize_hebrew_word lw, c, 0, "exact"⟩ : WordMatch) ∈ exact_phase M lw := by
  unfold exact_phase
  exact List.mem_map.mpr ⟨c, List.mem_filter.mpr ⟨hc, by simp [hnorm]⟩, rfl⟩

theorem appendFuzzy_inv (M : AnkiMatcher) (lw : String) :
    ∀ (ps : List (AnkiCard × Nat)) (acc : List WordMatch),
    (∀ m ∈ acc, MatchInv M (normalize_hebrew_word lw) m) →
    (∀ c ∈ M.cards, c.normalized_hebrew = normalize_hebrew_word lw →
      ∃ m ∈ acc, m.anki_card.card_id = c.card_id) →
    (∀ p ∈ ps, p.1 ∈ M.cards ∧
      p.2 = levenshtein_distance (normalize_hebrew_word lw).data
        p.1.normalized_hebrew.data ∧
      p.2 ≤ M.similarity_threshold) →
    ∀ m ∈ appendFuzzy lw (normalize_hebrew_word lw) acc ps,
      MatchInv M (normalize_hebrew_word lw) m := by
  intro ps
  induction ps with
  | nil =>
    intro acc hacc _ _ m hm
    simp only [appendFuzzy] at hm
    exact hacc m hm
  | cons p rest ih =>
    intro acc hacc hcover hps
    unfold appendFuzzy
    split
    · exact ih acc hacc hcover
        (fun q hq => hps q (List.mem_cons_of_mem _ hq))
    · rename_i hany
      obtain ⟨hpc, hpd, hpt⟩ := hps p (List.mem_cons_self _ _)
      have hpos : 1 ≤ p.2 := by
        rcases Nat.eq_zero_or_pos p.2 with h0 | h0
        · exfalso
          have hzero : levenshtein_distance (normalize_hebrew_word lw).data
              p.1.normalized_hebrew.data = 0 := by rw [← hpd]; exact h0
          have heq : p.1.normalized_hebrew = normalize_hebrew_word lw :=
            (String.ext ((levenshtein_distance_eq_zero_iff _ _).mp hzero)).symm
          obtain ⟨m', hm', hid⟩ := hcover p.1 hpc heq
          have : acc.any (fun m => decide (m.anki_card.card_id = p.1.card_id)) = true :=
            List.any_eq_true.mpr ⟨m', hm', by simpa using hid⟩
          exact hany this
        · exact h0
      apply ih (acc ++ [(⟨lw, normalize_hebrew_word lw, p.1, p.2, "fuzzy"⟩ : WordMatch)])
      · intro m hm
        rcases List.mem_append.mp hm with hm' | hm'
        · exact hacc m hm'
        · simp only [List.mem_singleton] at hm'
          subst hm'
          exact Or.inr ⟨rfl, hpos, hpd, hpt⟩
      · intro c hc hcn
        obtain ⟨m', hm', hid⟩ := hcover c hc hcn
        exact ⟨m', List.mem_append.mpr (Or.inl hm'), hid⟩
      · exact fun q hq => hps q (List.mem_cons_of_mem _ hq)

theorem pre_sort_matches_inv (M : AnkiMatcher) (lw : String) (k : Nat) :
    ∀ m ∈ pre_sort_matches M lw k, MatchInv M (normalize_hebrew_word lw) m := by
  intro m hm
  unfold pre_sort_matches at hm
  simp only at hm
  have hexact : ∀ m' ∈ exact_phase M lw, MatchInv M (normalize_hebrew_word lw) m' := by
    intro m' hm'
    obtain ⟨_, hb, hc, hd⟩ := exact_phase_mem hm'
    exact Or.inl ⟨hd, hc, hb⟩
  split at hm
  · refine appendFuzzy_inv M lw _ (exact_phase M lw) hexact ?_ ?_ m hm
    · intro c hc hcn
      exact ⟨⟨lw, normalize_hebrew_word lw, c, 0, "exact"⟩,
        exact_phase_covers hc hcn, rfl⟩
    · exact fun p hp => fuzzy_match_mem hp
  · exact hexact m hm

theorem find_matches_mem_inv {M : AnkiMatcher} {lw : String} {k : Nat}
    {m : WordMatch} (h : m ∈ find_matches M lw k) :
    MatchInv M (normalize_hebrew_word lw) m := by
  unfold find_matches at h
  have h1 := List.Sublist.mem h (List.take_sublist _ _)
  have h2 := (List.mem_insertionSort MatchLeR).mp h1
  exact pre_sort_matches_inv M lw k m h2

/-! ### Claim C2 -/

/-- C2: for every result of `find_matches` whose match type is `fuzzy`,
the Levenshtein distance between the normalized query word and the card's
normalized Hebrew is at most the matcher's configured threshold. -/
theorem fuzzy_results_within_threshold (M : AnkiMatcher) (lesson_word : String)
    (max_candidates : Nat) (m : WordMatch)
    (hm : m ∈ find_matches M lesson_word max_candidates)
    (hf : m.match_type = "fuzzy") :
    levenshtein_distance (normalize_hebrew_word lesson_word).data
      m.anki_card.normalized_hebrew.data ≤ M.similarity_threshold := by
  rcases find_matches_mem_inv hm with ⟨ht, _, _⟩ | ⟨_, _, hd, hthr⟩
  · rw [ht] at hf
    exact absurd hf (by decide)
  · rw [← hd]
    exact hthr

/-- Witness for C2: a concrete fuzzy result of `find_matches`. -/
theorem fuzzy_results_within_threshold_witness :
    ((⟨"aa", normalize_hebrew_word "aa", ⟨5, 50, "b", "eb", "ab", []⟩, 1, "fuzzy"⟩ :
        WordMatch) ∈ find_matches fuzzyDemoMatcher "aa" 1 ∧
      (⟨"aa", normalize_hebrew_word "aa", ⟨5, 50, "b", "eb", "ab", []⟩, 1, "fuzzy"⟩ :
        WordMatch).match_type = "fuzzy") ∧
    levenshtein_distance (normalize_hebrew_word "aa").data
      (⟨"aa", normalize_hebrew_word "aa", ⟨5, 50, "b", "eb", "ab", []⟩, 1, "fuzzy"⟩ :
        WordMatch).anki_card.normalized_hebrew.data ≤
      fuzzyDemoMatcher.similarity_threshold :=
  ⟨⟨by decide, by decide⟩,
    fuzzy_results_within_threshold fuzzyDemoMatcher "aa" 1 _ (by decide) (by decide)⟩

/-! ### Claim C1 -/

theorem exact_phase_subset_pre_sort (M : AnkiMatcher) (lw : String) (k : Nat) :
    ∀ m ∈ exact_phase M lw, m ∈ pre_sort_matches M lw k := by
  intro m hm
  unfold pre_sort_matches
  simp only
  split
  · obtain ⟨extra, he, _⟩ := appendFuzzy_eq_append lw (normalize_hebrew_word lw)
      (fuzzy_match M (normalize_hebrew_word lw) (k - (exact_phase M lw).length))
      (exact_phase M lw)
    rw [he]
    exact List.mem_append.mpr (Or.inl hm)
  · exact hm

theorem countP_score_zero_pre_sort (M : AnkiMatcher) (lw : String) (k : Nat) :
    (pre_sort_matches M lw k).countP (fun m => decide (m.similarity_score = 0)) =
      (exact_phase M lw).length := by
  have h1 : (exact_phase M lw).countP (fun m => decide (m.similarity_score = 0)) =
      (exact_phase M lw).length :=
    List.countP_eq_length.mpr (fun m hm => by simp [(exact_phase_mem hm).2.2.1])
  unfold pre_sort_matches
  simp only
  split
  · rename_i hcond
    obtain ⟨extra, he, hm⟩ := appendFuzzy_eq_append lw (normalize_hebrew_word lw)
      (fuzzy_match M (normalize_hebrew_word lw) (k - (exact_phase M lw).length))
      (exact_phase M lw)
    rw [he, List.countP_append, h1]
    have h2 : extra.countP (fun m => decide (m.similarity_score = 0)) = 0 := by
      apply List.countP_eq_zero.mpr
      intro m hmem
      have hpre : m ∈ pre_sort_matches M lw k := by
        unfold pre_sort_matches
        simp only
        rw [if_pos hcond, he]
        exact List.mem_append.mpr (Or.inr hmem)
      have hinv := pre_sort_matches_inv M lw k m hpre
      have htype : m.match_type = "fuzzy" := by
        obtain ⟨p, _, hpe⟩ := hm m hmem
        rw [hpe]
      rcases hinv with ⟨ht, _, _⟩ | ⟨_, hpos, _, _⟩
      · rw [htype] at ht
        exact absurd ht (by decide)
      · simp only [decide_eq_true_eq]
        omega
    omega
  · exact h1

/-- C1 (amended): provided the deck holds at most `max_candidates` cards
whose normalized Hebrew equals the normalized query (otherwise the final
truncation necessarily drops some of them — see the counterexample),
`find_matches` returns every such card with score 0 and type `exact`;
unconditionally — for every deck — every exact result precedes every
fuzzy result, the returned list is sorted by the `(score, hebrew)` key,
and its length never exceeds `max_candidates`. -/
theorem find_matches_spec (M : AnkiMatcher) (lw : String) (k : Nat) :
    ((M.cards.filter
      (fun c => decide (c.normalized_hebrew = normalize_hebrew_word lw))).length ≤ k →
      ∀ c ∈ M.cards, c.normalized_hebrew = normalize_hebrew_word lw →
        ∃ m ∈ find_matches M lw k, m.anki_card = c ∧ m.similarity_score = 0 ∧
          m.match_type = "exact") ∧
    (find_matches M lw k).Pairwise
      (fun a b => a.match_type = "fuzzy" → b.match_type = "fuzzy") ∧
    (find_matches M lw k).Pairwise MatchLeR ∧
    (find_matches M lw k).length ≤ k := by
  haveI : IsTrans WordMatch MatchLeR := ⟨matchLeR_trans⟩
  haveI : IsTotal WordMatch MatchLeR := ⟨matchLeR_total⟩
  have hsorted : (List.insertionSort MatchLeR (pre_sort_matches M lw k)).Pairwise
      MatchLeR := List.sorted_insertionSort MatchLeR (pre_sort_matches M lw k)
  have htake : find_matches M lw k =
      (List.insertionSort MatchLeR (pre_sort_matches M lw k)).take k := rfl
  refine ⟨?_, ?_, ?_, ?_⟩
  · intro h c hc hcn
    have hexlen : (exact_phase M lw).length =
        (M.cards.filter
          (fun c => decide (c.normalized_hebrew = normalize_hebrew_word lw))).length := by
      unfold exact_phase
      rw [List.length_map]
    have hexk : (exact_phase M lw).length ≤ k := by rw [hexlen]; exact h
    have hm0 : (⟨lw, normalize_hebrew_word lw, c, 0, "exact"⟩ : WordMatch) ∈
        List.insertionSort MatchLeR (pre_sort_matches M lw k) :=
      (List.mem_insertionSort MatchLeR).mpr
        (exact_phase_subset_pre_sort M lw k _ (exact_phase_covers hc hcn))
    set L := List.insertionSort MatchLeR (pre_sort_matches M lw k) with hL
    set m0 : WordMatch := ⟨lw, normalize_hebrew_word lw, c, 0, "exact"⟩ with hm0def
    have hsplit : m0 ∈ L.take k ∨ m0 ∈ L.drop k := by
      rcases List.mem_append.mp ((List.take_append_drop k L).symm ▸ hm0) with h' | h'
      · exact Or.inl h'
      · exact Or.inr h'
    rcases hsplit with hin | hdrop
    · exact ⟨m0, htake ▸ hin, rfl, rfl, rfl⟩
    · exfalso
      have hklt : k < L.length := by
        have hne : L.drop k ≠ [] := fun hnil => by rw [hnil] at hdrop; simp at hdrop
        have := List.length_drop k L
        rcases Nat.lt_or_ge k L.length with h' | h'
        · exact h'
        · exact absurd (by rw [List.drop_eq_nil_of_le h'] at hdrop; simp at hdrop) id
      have htakeall : ∀ x ∈ L.take k, x.similarity_score = 0 := by
        intro x hx
        have hrel : MatchLeR x m0 :=
          List.Sorted.rel_of_mem_take_of_mem_drop hsorted hx hdrop
        have := matchLe_score_le hrel
        simp only [hm0def] at this
        omega
      have hcount : L.countP (fun m => decide (m.similarity_score = 0)) =
          (exact_phase M lw).length := by
        rw [(List.perm_insertionSort MatchLeR (pre_sort_matches M lw k)).countP_eq]
        exact countP_score_zero_pre_sort M lw k
      have hcounttake : (L.take k).countP (fun m => decide (m.similarity_score = 0)) =
          k := by
        have hlen : (L.take k).length = k := by
          rw [List.length_take]
          omega
        rw [List.countP_eq_length.mpr (fun x hx => by simp [htakeall x hx]), hlen]
      have hcountdrop : 0 < (L.drop k).countP
          (fun m => decide (m.similarity_score = 0)) :=
        List.countP_pos_iff.mpr ⟨m0, hdrop, by simp [hm0def]⟩
      have hsum : L.countP (fun m => decide (m.similarity_score = 0)) =
          (L.take k).countP (fun m => decide (m.similarity_score = 0)) +
          (L.drop k).countP (fun m => decide (m.similarity_score = 0)) := by
        rw [← List.countP_append, List.take_append_drop]
      omega
  · apply List.Pairwise.imp_of_mem ?_ ((List.Pairwise.sublist (List.take_sublist _ _))
      hsorted)
    intro a b ha hb hab hafuzzy
    have hainv := find_matches_mem_inv (htake ▸ ha)
    have hbinv := find_matches_mem_inv (htake ▸ hb)
    have hscore := matchLe_score_le hab
    rcases hainv with ⟨hat, _, _⟩ | ⟨_, hapos, _, _⟩
    · rw [hafuzzy] at hat
      exact absurd hat (by decide)
    · rcases hbinv with ⟨_, hbz, _⟩ | ⟨hbt, _, _⟩
      · omega
      · exact hbt
  · exact (List.Pairwise.sublist (List.take_sublist _ _)) hsorted
  · rw [htake, List.length_take]
    exact Nat.min_le_left _ _

/-- C1 counterexample: with two cards whose normalized Hebrew equals the
normalized query and `max_candidates = 1`, `find_matches` returns only one
of them — the final truncation drops the other — so it does not return
every card whose normalized Hebrew equals the normalized query. -/
theorem find_matches_drops_exact_counterexample :
    (find_matches dupExactMatcher "aa" 1).length = 1 ∧
    (⟨2, 12, "b", "e2", "aa", []⟩ : AnkiCard) ∈ dupExactMatcher.cards ∧
    (⟨2, 12, "b", "e2", "aa", []⟩ : AnkiCard).normalized_hebrew =
      normalize_hebrew_word "aa" ∧
    ¬ ∃ m ∈ find_matches dupExactMatcher "aa" 1,
        m.anki_card = (⟨2, 12, "b", "e2", "aa", []⟩ : AnkiCard) := by
  refine ⟨by decide, by decide, by decide, by decide⟩

/-- Witness for C1's amended claim at a concrete matcher, exercising the
exact-card-count hypothesis of the completeness conjunct. -/
theorem find_matches_spec_witness :
    ((specDemoMatcher.cards.filter
      (fun c => decide (c.normalized_hebrew = normalize_hebrew_word "aa"))).length ≤ 3) ∧
    (∀ c ∈ specDemoMatcher.cards,
        c.normalized_hebrew = normalize_hebrew_word "aa" →
        ∃ m ∈ find_matches specDemoMatcher "aa" 3, m.anki_card = c ∧
          m.similarity_score = 0 ∧ m.match_type = "exact") :=
  ⟨by decide, (find_matches_spec specDemoMatcher "aa" 3).1 (by decide)⟩
